import Mathlib

/-!
# Verification of the gitdb checkout core

A shallow embedding of the `gitdb` repository's checkout abstraction
(`internal/gitdb/http.go`, `internal/gitdb/git.go`): the git object-store
data model, branch resolution, file/directory reads, archive packaging,
refresh, the HTTP routing handlers built on them, and the reader/writer
lock discipline guarding a checkout.  Theorems at the end settle the
specification's claims about these operations.
-/

set_option maxHeartbeats 1000000

namespace Gitdb

/-! ## Git object model

A git tree is a list of named entries; each entry is either a blob
(file content) or a subtree.  `mode` and `hash` mirror the fields that
go-git exposes on a tree entry (`e.Mode`, `e.Hash`).  We use a mutual
inductive so that structural recursion over the entry list is direct. -/

mutual

inductive GitNode : Type where
  | blob (content : String)
  | tree (entries : GitEntries)
  deriving DecidableEq

inductive GitEntries : Type where
  | nil
  | cons (name : String) (mode : Nat) (hash : String) (node : GitNode) (rest : GitEntries)
  deriving DecidableEq

end

/-- Immediate children of an entry list as a flat list of
`(name, mode, hash, node)` tuples. -/
def GitEntries.toList : GitEntries → List (String × Nat × String × GitNode)
  | .nil => []
  | .cons name mode hash node rest => (name, mode, hash, node) :: rest.toList

/-- Find an entry by name (go-git `Tree.FindEntry` on one path segment). -/
def GitEntries.find : GitEntries → String → Option (Nat × String × GitNode)
  | .nil, _ => none
  | .cons name mode hash node rest, target =>
      if name = target then some (mode, hash, node) else rest.find target

/-- Walk a node one path segment at a time (go-git `FindEntry` over a
slash-separated path). -/
def walkNode : GitNode → List String → Option GitNode
  | n, [] => some n
  | GitNode.blob _, _ :: _ => none
  | GitNode.tree es, seg :: rest =>
      match es.find seg with
      | none => none
      | some (_, _, child) => walkNode child rest

/-- Go `strings.Split(s, "/")` (go-git splits paths this way in
`FindEntry`), over the character list so that it evaluates by
structural recursion. -/
def splitOnSlashAux : List Char → List Char → List String
  | [], acc => [String.mk acc.reverse]
  | c :: rest, acc =>
      if c = '/' then String.mk acc.reverse :: splitOnSlashAux rest []
      else splitOnSlashAux rest (c :: acc)

def splitOnSlash (s : String) : List String :=
  splitOnSlashAux s.toList []

/-- Go `strings.HasPrefix`. -/
def strHasPrefix (pre s : String) : Bool :=
  pre.toList.isPrefixOf s.toList

/-- Go `s[n:]` (dropping the first `n` characters). -/
def strDrop (s : String) (n : Nat) : String :=
  String.mk (s.toList.drop n)

/-- Go `len(s)`. -/
def strLength (s : String) : Nat :=
  s.toList.length

/-- Append a path segment, joining with "/" as go-git does for
`object.File.Name`. -/
def joinPath (pre name : String) : String :=
  if pre = "" then name else pre ++ "/" ++ name

/-- Full slash-separated paths of every blob reachable from an entry
list, in stored order, depth first: go-git's `Tree.Files()` iterator
(`tree.walker` descending into subtrees in entry order). -/
def filesOf (pre : String) : GitEntries → List String
  | .nil => []
  | .cons name _ _ (GitNode.blob _) rest =>
      joinPath pre name :: filesOf pre rest
  | .cons name _ _ (GitNode.tree es) rest =>
      filesOf (joinPath pre name) es ++ filesOf pre rest

/-- Blob content at a slash-separated path below a root entry list
(go-git `Tree.File`: resolves the path and requires a file at it;
a missing entry or a tree at the path is `ErrFileNotFound`). -/
def fileAt (root : GitEntries) (path : String) : Option String :=
  match walkNode (GitNode.tree root) (splitOnSlash path) with
  | some (GitNode.blob c) => some c
  | _ => none

/-- Tree entries at a slash-separated path below a root entry list
(go-git `Tree.Tree`: a missing entry or a blob at the path is
`ErrDirectoryNotFound`). -/
def treeAt (root : GitEntries) (path : String) : Option GitEntries :=
  match walkNode (GitNode.tree root) (splitOnSlash path) with
  | some (GitNode.tree es) => some es
  | _ => none

/-! ## Reference store

The local object store of one bare clone: resolved references
(name → commit hash) and commit objects (hash → root tree entries). -/

/-- First-match association-list lookup, the shape of every map access
in the embedding. -/
def lookupStr {α : Type} : List (String × α) → String → Option α
  | [], _ => none
  | (k, v) :: rest, target => if k = target then some v else lookupStr rest target

structure RefStore where
  refs : List (String × String)
  commits : List (String × GitEntries)
  deriving DecidableEq

/-- `plumbing.NewRemoteReferenceName("origin", branch)`. -/
def remoteRefName (branch : String) : String :=
  "refs/remotes/origin/" ++ branch

/-- `g.repo.Reference(name, true)`: resolve a reference name to a hash. -/
def resolveRef (store : RefStore) (name : String) : Option String :=
  lookupStr store.refs name

/-- `g.repo.CommitObject(hash)` followed by `.Tree()`: the root tree of
a commit. -/
def lookupCommit (store : RefStore) (hash : String) : Option GitEntries :=
  lookupStr store.commits hash

/-! ## Errors

The error values the checkout code produces, with the wrap structure Go's
`errors.Is` traverses.  `unknownBranch` is the struct of the same name in
`http.go` (its `Is` method matches the sentinel `UnknownBranchErr`, its
`Unwrap` exposes the wrapped resolution error); `wrapped` is
`fmt.Errorf("...: %w", err)`; `fileNotFound` / `dirNotFound` are go-git's
`object.ErrFileNotFound` / `object.ErrDirectoryNotFound`; `refNotFound`
is `plumbing.ErrReferenceNotFound`. -/

inductive GitErr : Type where
  | unknownBranch (branch : String) (wraps : GitErr)
  | refNotFound
  | fileNotFound
  | dirNotFound
  | wrapped (msg : String) (inner : GitErr)
  | other (msg : String)
  deriving DecidableEq

instance exceptDecEq {ε α : Type} [DecidableEq ε] [DecidableEq α] :
    DecidableEq (Except ε α) := fun a b =>
  match a, b with
  | .error e1, .error e2 =>
      if h : e1 = e2 then isTrue (by rw [h]) else isFalse (by simp [h])
  | .error _, .ok _ => isFalse (by simp)
  | .ok _, .error _ => isFalse (by simp)
  | .ok v1, .ok v2 =>
      if h : v1 = v2 then isTrue (by rw [h]) else isFalse (by simp [h])

/-- The sentinel error values callers compare against with `errors.Is`. -/
inductive Sentinel : Type where
  | unknownBranchErr
  | errFileNotFound
  | errDirectoryNotFound
  deriving DecidableEq

/-- Go `errors.Is(err, target)`: walk the unwrap chain; at each node the
target matches if it is that node's identity or the node's `Is` method
accepts it.  `unknownBranch.Is` accepts exactly `UnknownBranchErr`. -/
def errorsIs : GitErr → Sentinel → Bool
  | .unknownBranch _ w, s => s = Sentinel.unknownBranchErr || errorsIs w s
  | .refNotFound, _ => false
  | .fileNotFound, s => s = Sentinel.errFileNotFound
  | .dirNotFound, s => s = Sentinel.errDirectoryNotFound
  | .wrapped _ inner, s => errorsIs inner s
  | .other _, _ => false

/-- Rendering of an error (`Error()` / `fmt` verbs), used in handler
bodies. -/
def GitErr.render : GitErr → String
  | .unknownBranch b _ => "unknown branch " ++ b
  | .refNotFound => "reference not found"
  | .fileNotFound => "file does not exist"
  | .dirNotFound => "directory not found"
  | .wrapped m inner => m ++ ": " ++ inner.render
  | .other m => m

/-! ## The checkout and its read operations -/

/-- The state of one `GitCheckout` (`http.go`): the local path it
exclusively owns, its remote URL, and its object store (the `repo`
handle).  The `sync.RWMutex` is modelled separately by the lock trace
semantics below; the `auth`/`log`/`tracing` fields carry no
read-observable state. -/
structure GitCheckout where
  absPath : String
  remoteURL : String
  store : RefStore
  deriving DecidableEq

/-- An `io.WriterTo` as the checkout code produces them: either the lazy
`readerWriterTo` (holds a file handle into the store and only reads the
blob when `WriteTo` runs) or an already-filled `bytes.Buffer`. -/
inductive WriterTo : Type where
  | lazyBlob (store : RefStore) (hash : String) (path : String)
  | buffered (content : String)
  deriving DecidableEq

/-- Whether the value already holds the full content in memory. -/
def WriterTo.isBuffered : WriterTo → Bool
  | .lazyBlob _ _ _ => false
  | .buffered _ => true

/-- Running `WriteTo`: the bytes it produces.  The lazy form reads the
blob from the store at that moment (`readerWriterTo.WriteTo` opening
`f.Reader()` and copying); the buffer just drains itself. -/
def WriterTo.writeTo : WriterTo → Option String
  | .lazyBlob store hash path => do
      let root ← lookupCommit store hash
      fileAt root path
  | .buffered content => some content

/-- `GitCheckout.fileContent` (`http.go`): commit object for the resolved
hash, `t.File(fileName)` (wrapping `object.ErrFileNotFound` with
`fmt.Errorf("unable to fetch file %s: %w", ...)`), and a lazy
`readerWriterTo` on success. -/
def fileContent (store : RefStore) (hash : String) (fileName : String) :
    Except GitErr WriterTo :=
  match lookupCommit store hash with
  | none => .error (.wrapped ("unable to make tree object for hash " ++ hash)
      (.other "object not found"))
  | some root =>
      match fileAt root fileName with
      | none => .error (.wrapped ("unable to fetch file " ++ fileName) .fileNotFound)
      | some _ => .ok (.lazyBlob store hash fileName)

/-- `GitCheckout.GetFile` (`http.go`, the RWMutex version): resolve the
origin tracking ref for the branch (`unknownBranch` error if absent),
fetch the lazy content handle, then immediately drain it into a
`bytes.Buffer` and return the buffer. -/
def GitCheckout.GetFile (g : GitCheckout) (branch path : String) :
    Except GitErr WriterTo :=
  match resolveRef g.store (remoteRefName branch) with
  | none => .error (.unknownBranch branch .refNotFound)
  | some h =>
      match fileContent g.store h path with
      | .error e => .error e
      | .ok f =>
          match f.writeTo with
          | none => .error (.wrapped "unable to read file contents" (.other "read error"))
          | some content => .ok (.buffered content)

/-- `GitCheckout.lsFilesNoLock` (`http.go`): resolve the branch, walk the
commit's tree with the file iterator, collect every file's full path. -/
def GitCheckout.lsFilesNoLock (g : GitCheckout) (branch : String) :
    Except GitErr (List String) :=
  match resolveRef g.store (remoteRefName branch) with
  | none => .error (.unknownBranch branch .refNotFound)
  | some h =>
      match lookupCommit g.store h with
      | none => .error (.wrapped ("unable to make tree object for hash " ++ h)
          (.other "object not found"))
      | some root => .ok (filesOf "" root)

/-- `GitCheckout.LsFiles` (`http.go`): `lsFilesNoLock` under the shared
lock. -/
def GitCheckout.LsFiles (g : GitCheckout) (branch : String) :
    Except GitErr (List String) :=
  g.lsFilesNoLock branch

/-- `FileStat` (`http.go`): one directory entry of an `LsDir` listing. -/
structure FileStat where
  Name : String
  Mode : Nat
  Hash : String
  deriving DecidableEq

/-- The `FileStat` view of one tree entry (`uint32(e.Mode)`,
`e.Hash.String()`). -/
def statOf (e : String × Nat × String × GitNode) : FileStat :=
  ⟨e.1, e.2.1, e.2.2.1⟩

/-- Comparison used by `sort.Slice(retStat, ...Name < ...Name)`:
lexicographic order on the name, character by character (Go compares
the UTF-8 bytes; byte order and codepoint order coincide under
UTF-8). -/
def statLE (a b : FileStat) : Prop := a.Name.toList ≤ b.Name.toList

instance : DecidableRel statLE := fun a b =>
  inferInstanceAs (Decidable (a.Name.toList ≤ b.Name.toList))

instance : IsTotal FileStat statLE :=
  ⟨fun a b => le_total a.Name.toList b.Name.toList⟩

instance : IsTrans FileStat statLE :=
  ⟨fun _ _ _ hab hbc => le_trans hab hbc⟩

/-- `GitCheckout.LsDir` (`http.go`, the RWMutex version): resolve the
branch, take the commit's root tree, descend to `dir` when it is
non-empty (`t.Tree(dir)`, wrapping `object.ErrDirectoryNotFound`), map
the immediate entries to `FileStat`, sort by name. -/
def GitCheckout.LsDir (g : GitCheckout) (dir branch : String) :
    Except GitErr (List FileStat) :=
  match resolveRef g.store (remoteRefName branch) with
  | none => .error (.unknownBranch branch .refNotFound)
  | some h =>
      match lookupCommit g.store h with
      | none => .error (.wrapped ("unable to make commit object for hash " ++ h)
          (.other "object not found"))
      | some root =>
          let te? := if dir = "" then some root else treeAt root dir
          match te? with
          | none => .error (.wrapped ("unable to find entry named " ++ dir) .dirNotFound)
          | some es =>
              .ok ((es.toList.map statOf).insertionSort statLE)

/-! ## Archive packaging -/

/-- Go `strings.Trim(s, "/")`: drop every leading and trailing `/`. -/
def trimSlashes (s : String) : String :=
  String.mk (((s.toList.dropWhile (· = '/')).reverse.dropWhile (· = '/')).reverse)

/-- Go `strings.TrimPrefix(s, "/")`: drop one leading `/` if present. -/
def trimOneLeadingSlash (s : String) : String :=
  if strHasPrefix "/" s then strDrop s 1 else s

/-- The archive entry name for a retained path: the trimmed prefix is cut
off the front (`file[len(prefix):]`) and one remaining leading `/` is
dropped before `w.Create`. -/
def zipEntryName (pre file : String) : String :=
  trimOneLeadingSlash (strDrop file (strLength pre))

/-- The loop body of `ZipContent`: walk the flattened file list in order;
skip paths without the (already trimmed) prefix; for each retained path
create a zip entry under its stripped name and write the blob's full
content into it.  The zip writer is modelled as the ordered list of
`(entry name, content)` pairs it has been given; any mid-loop failure
aborts with that error, as the code returns it. -/
def zipLoop (store : RefStore) (hash : String) (pre : String) :
    List String → Except GitErr (List (String × String))
  | [] => .ok []
  | file :: rest =>
      if ¬ (strHasPrefix pre file) then zipLoop store hash pre rest
      else
        match fileContent store hash file with
        | .error e => .error (.wrapped ("unable to get file content for " ++ file) e)
        | .ok wt =>
            match wt.writeTo with
            | none => .error (.wrapped ("unable to write file named " ++ file)
                (.other "read error"))
            | some content =>
                match zipLoop store hash pre rest with
                | .error e => .error e
                | .ok entries => .ok ((zipEntryName pre file, content) :: entries)

/-- `GitCheckout.ZipContent` (`http.go`, the RWMutex version): under the
shared lock, list the branch's files, trim the prefix, re-resolve the
branch ref, then run the packing loop.  Returns the zip entries written
and `numFiles`, the count of files written (the code increments
`numFiles` once per entry; on success it equals the number of entries). -/
def GitCheckout.ZipContent (g : GitCheckout) (pre branch : String) :
    Except GitErr (List (String × String) × Nat) :=
  match g.lsFilesNoLock branch with
  | .error e => .error (.wrapped "unable to list files" e)
  | .ok files =>
      let pre' := trimSlashes pre
      match resolveRef g.store (remoteRefName branch) with
      | none => .error (.unknownBranch branch .refNotFound)
      | some h =>
          match zipLoop g.store h pre' files with
          | .error e => .error e
          | .ok entries => .ok (entries, entries.length)

/-! ## Pinned checkouts and the free `ZipContent`

The handler layer in `http.go` resolves a branch once with
`WithReference` (pinning `g.ref`) and hands the pinned checkout to the
free function `ZipContent(ctx, into, prefix, from)`, whose `LsFiles` and
`FileContent` then read from the pinned reference. -/

/-- A `GitCheckout` whose `ref` field is set: `WithReference` copies the
checkout and pins the resolved reference. -/
structure PinnedCheckout where
  store : RefStore
  refHash : String
  deriving DecidableEq

/-- `GitCheckout.WithReference` (`git.go`): resolve the reference name in
the store; on failure wrap the resolution error, on success return the
pinned copy. -/
def GitCheckout.WithReference (g : GitCheckout) (refName : String) :
    Except GitErr PinnedCheckout :=
  match lookupStr g.store.refs refName with
  | none => .error (.wrapped ("unable to resolve ref " ++ refName) .refNotFound)
  | some h => .ok ⟨g.store, h⟩

/-- `LsFiles` on a pinned checkout (`g.reference()` returns the pinned
ref). -/
def PinnedCheckout.lsFiles (p : PinnedCheckout) : Except GitErr (List String) :=
  match lookupCommit p.store p.refHash with
  | none => .error (.wrapped ("unable to make tree object for hash " ++ p.refHash)
      (.other "object not found"))
  | some root => .ok (filesOf "" root)

/-- The free `ZipContent(ctx, into, prefix, from)`: list the pinned
checkout's files, trim the prefix, run the same packing loop. -/
def ZipContent (pre : String) (from_ : PinnedCheckout) :
    Except GitErr (List (String × String) × Nat) :=
  match from_.lsFiles with
  | .error e => .error (.wrapped "unable to list files" e)
  | .ok files =>
      let pre' := trimSlashes pre
      match zipLoop from_.store from_.refHash pre' files with
      | .error e => .error e
      | .ok entries => .ok (entries, entries.length)

/-! ## Refresh

`GitCheckout.Refresh` takes the exclusive lock and runs
`g.repo.FetchContext`.  go-git is an external library; its fetch is
modelled from the spec's contract for it: it atomically updates the
origin tracking references to the remote's current state, reports
`NoErrAlreadyUpToDate` when no reference needs updating, and on network
failure or context cancellation fails without touching the store. -/

/-- Outcome of the network environment for one fetch attempt. -/
inductive NetCond : Type where
  | ok
  | failed (msg : String)
  | canceled
  deriving DecidableEq

/-- The remote's current state: branch heads and the object graph
reachable from them. -/
structure Remote where
  branches : List (String × String)
  objects : List (String × GitEntries)
  deriving DecidableEq

/-- The local store a completed fetch leaves behind: origin tracking
refs set to the remote's branch heads, objects from the remote. -/
def fetchedStore (remote : Remote) : RefStore :=
  { refs := remote.branches.map (fun p => (remoteRefName p.1, p.2))
    commits := remote.objects }

/-- Whether any tracking reference would change, i.e. the negation of
go-git's `NoErrAlreadyUpToDate` condition. -/
def needsUpdate (remote : Remote) (store : RefStore) : Bool :=
  remote.branches.any (fun p => lookupStr store.refs (remoteRefName p.1) ≠ some p.2)

/-- Result of `FetchContext`. -/
inductive FetchOutcome : Type where
  | fetched (newStore : RefStore)
  | upToDate
  | failure (msg : String)
  deriving DecidableEq

/-- Modelled from the spec: go-git's `Repository.FetchContext` (the
external object-storage/transport library this system delegates to).
The fetch is atomic at the object-store level — cancellation or network
failure before completion simply discards the attempt; otherwise it
either reports `NoErrAlreadyUpToDate` or installs the remote's state. -/
def fetchContext (net : NetCond) (remote : Remote) (store : RefStore) : FetchOutcome :=
  match net with
  | .failed msg => .failure msg
  | .canceled => .failure "context canceled"
  | .ok =>
      if needsUpdate remote store then .fetched (fetchedStore remote)
      else .upToDate

/-- `GitCheckout.Refresh` (`http.go`, the RWMutex version): under the
exclusive lock, fetch; `nil` error or `NoErrAlreadyUpToDate` is success,
anything else is wrapped into
`fmt.Errorf("unable to refresh repository: %w", err)` with the store
untouched. -/
def GitCheckout.Refresh (g : GitCheckout) (net : NetCond) (remote : Remote) :
    GitCheckout × Except GitErr Unit :=
  match fetchContext net remote g.store with
  | .fetched s => ({ g with store := s }, .ok ())
  | .upToDate => (g, .ok ())
  | .failure msg => (g, .error (.wrapped "unable to refresh repository" (.other msg)))

/-! ## The routing layer (`CheckoutHandler`) -/

/-- A response body as the handlers build them: plain text, a zip
archive (`bytes.Buffer` filled by the zip writer, modelled by its
entries), or the JSON-encoded `FileStat` array. -/
inductive Body : Type where
  | text (s : String)
  | zipArchive (entries : List (String × String))
  | jsonStats (stats : List FileStat)
  deriving DecidableEq

/-- `httpserver.BasicResponse`: status code, body, optional
`Content-Type` header. -/
structure BasicResponse where
  Code : Nat
  Msg : Body
  contentType : Option String
  deriving DecidableEq

/-- The handler's map of configured checkouts, `h.Checkouts`, as an
association list in one iteration order (Go map iteration order is
arbitrary; everything proved below holds for every enumeration). -/
abbrev Checkouts : Type := List (String × GitCheckout)

/-- `CheckoutHandler.refreshAllRepoHandler` (`http.go`): iterate the
configured checkouts, calling `Refresh` on each in turn; at the first
error answer 500 with that repository's name and error and attempt no
further checkout; if every `Refresh` succeeds answer 200 `"OK"`.
Returns the updated checkouts alongside the response.  `net` and
`remote` give each repository's fetch environment during this call. -/
def refreshAllRepoHandler (net : String → NetCond) (remote : String → Remote) :
    List (String × GitCheckout) → List (String × GitCheckout) × BasicResponse
  | [] => ([], ⟨200, .text "OK", none⟩)
  | (name, co) :: rest =>
      match co.Refresh (net name) (remote name) with
      | (co', .ok ()) =>
          let r := refreshAllRepoHandler net remote rest
          ((name, co') :: r.1, r.2)
      | (co', .error e) =>
          ((name, co') :: rest,
            ⟨500, .text ("unable to refresh " ++ name ++ ": " ++ e.render), none⟩)

/-- `CheckoutHandler.zipDirHandler` (`http.go`): 404 when repo or branch
is empty or unknown or the branch does not resolve; then
`ZipContent(ctx, &buf, dir, r)`: an error answers 500, a zero file count
answers 404 "no files in path", and otherwise the archive is answered
with 200 and `Content-Type: application/zip`. -/
def zipDirHandler (checkouts : Checkouts) (repo branch dir : String) : BasicResponse :=
  if repo = "" ∨ branch = "" then
    ⟨404, .text ("One unset\x7brepo: " ++ repo ++ ", branch: " ++ branch ++ "\x7d"), none⟩
  else
    match lookupStr checkouts repo with
    | none => ⟨404, .text ("unable to find repo " ++ repo), none⟩
    | some g =>
        match g.WithReference (remoteRefName branch) with
        | .error _ =>
            ⟨404, .text ("unable to find branch " ++ branch ++ " for repo " ++ repo), none⟩
        | .ok p =>
            match ZipContent dir p with
            | .error e =>
                ⟨500, .text ("unable to zip content for " ++ dir ++ ": " ++ e.render), none⟩
            | .ok (entries, numFiles) =>
                if numFiles = 0 then
                  ⟨404, .text ("no files in path " ++ dir), none⟩
                else
                  ⟨200, .zipArchive entries, some "application/zip"⟩

/-- Go map assignment `ret[k] = v` on an association list: replace the
binding in place when the key is present, otherwise add it. -/
def mapInsert {α : Type} : List (String × α) → String → α → List (String × α)
  | [], k, v => [(k, v)]
  | (k', v') :: rest, k, v =>
      if k' = k then (k, v) :: rest else (k', v') :: mapInsert rest k v

/-- `CheckoutHandler.CheckoutsByRepo` (`http.go`): build a fresh map on
every call by inserting each configured checkout under its remote URL;
a later iteration sharing a URL overwrites the earlier binding. -/
def CheckoutsByRepo (checkouts : Checkouts) : List (String × GitCheckout) :=
  checkouts.foldl (fun ret p => mapInsert ret p.2.remoteURL p.2) []

/-! ## The lock discipline

The `sync.RWMutex` in `GitCheckout` and the way the code uses it:
`GetFile`, `LsFiles`, `LsDir` and `ZipContent` each run
`g.mu.RLock(); defer g.mu.RUnlock()` around their whole body, so every
store access of one read operation happens inside one shared-mode
critical section; `Refresh` runs `g.mu.Lock(); defer g.mu.Unlock()`
around the whole fetch and is the only writer of the store.  We model
interleaved executions as traces of lock/store events validated against
the reader-writer lock semantics. -/

/-- One atomic event of some thread `t`: acquiring/releasing the lock in
shared (`rLock`/`rUnlock`) or exclusive (`wLock`/`wUnlock`) mode,
installing a new store under the exclusive lock (`Refresh`'s fetch
taking effect), or a read operation observing the store under its
shared lock. -/
inductive Event : Type where
  | rLock (t : Nat)
  | rUnlock (t : Nat)
  | wLock (t : Nat)
  | wUnlock (t : Nat)
  | setStore (t : Nat) (s : RefStore)
  | readObs (t : Nat) (s : RefStore)
  deriving DecidableEq

/-- The lock automaton's state: which threads hold the lock in shared
mode, who (if anyone) holds it exclusively, and the current store. -/
structure LockState where
  readers : List Nat
  writer : Option Nat
  store : RefStore
  deriving DecidableEq

/-- `sync.RWMutex` semantics, one event at a time: shared acquisition
only while no writer holds the lock, exclusive acquisition only while
nobody holds it, the store mutated only by the exclusive holder, and an
observation recording exactly the current store of a shared holder.
`none` marks an event that cannot fire in that state. -/
def stepEvent : LockState → Event → Option LockState
  | st, .rLock t =>
      if st.writer = none ∧ t ∉ st.readers then
        some { st with readers := t :: st.readers } else none
  | st, .rUnlock t =>
      if t ∈ st.readers then some { st with readers := st.readers.erase t } else none
  | st, .wLock t =>
      if st.writer = none ∧ st.readers = [] then some { st with writer := some t } else none
  | st, .wUnlock t =>
      if st.writer = some t then some { st with writer := none } else none
  | st, .setStore t s =>
      if st.writer = some t then some { st with store := s } else none
  | st, .readObs t s =>
      if t ∈ st.readers ∧ s = st.store then some st else none

/-- Run a trace of events from a state; `none` if any event is invalid
where it occurs. -/
def runEvents : LockState → List Event → Option LockState
  | st, [] => some st
  | st, e :: rest =>
      match stepEvent st e with
      | none => none
      | some st' => runEvents st' rest

/-- A trace is a valid interleaving from a state when every event fires
legally. -/
def validRun (st : LockState) (tr : List Event) : Bool :=
  (runEvents st tr).isSome

/-- The quiescent initial state: no holders, store `s`. -/
def initState (s : RefStore) : LockState :=
  ⟨[], none, s⟩

/-- The events `Refresh` emits when its fetch installs store `s`:
exclusive lock for the entire fetch. -/
def refreshEvents (t : Nat) (s : RefStore) : List Event :=
  [.wLock t, .setStore t s, .wUnlock t]

/-- The events a read operation (`GetFile`, `LsFiles`, `LsDir`,
`ZipContent`) emits: shared lock around all of its store observations
(branch resolution through content reads). -/
def readOpEvents (t : Nat) (obs : List RefStore) : List Event :=
  Event.rLock t :: obs.map (Event.readObs t) ++ [Event.rUnlock t]

/-! ## Concrete fixtures

A small concrete repository used to instantiate the theorems: branch
`master` holds `a.txt` and a directory `adir` with two files, matching
the spec's end-to-end example shape. -/

def sampleSub : GitEntries :=
  .cons "sub.txt" 33188 "hs" (.blob "sub")
    (.cons "z.txt" 33188 "hz" (.blob "zz") .nil)

def sampleRoot : GitEntries :=
  .cons "a.txt" 33188 "ha" (.blob "alpha")
    (.cons "adir" 16384 "hd" (.tree sampleSub) .nil)

def sampleStore : RefStore :=
  ⟨[(remoteRefName "master", "c1")], [("c1", sampleRoot)]⟩

def sampleCheckout : GitCheckout :=
  ⟨"/tmp/gitdb_repo_x", "git@github.com:cresta/sample.git", sampleStore⟩

/-- A remote whose tip matches `sampleStore` (fetch is a no-op). -/
def sampleRemoteSame : Remote :=
  ⟨[("master", "c1")], [("c1", sampleRoot)]⟩

/-- A remote with a moved tip. -/
def sampleRemoteAhead : Remote :=
  ⟨[("master", "c2")], [("c2", sampleRoot)]⟩

/-- A second checkout sharing `sampleCheckout`'s remote URL. -/
def sampleCheckout2 : GitCheckout :=
  ⟨"/tmp/gitdb_repo_y", "git@github.com:cresta/sample.git", sampleStore⟩

/-! ## Shared helper lemmas -/

/-- An erroring `Refresh` hands back the checkout it was called on. -/
theorem refresh_error_eq (g : GitCheckout) (net : NetCond) (remote : Remote)
    (e : GitErr) (h : (g.Refresh net remote).2 = .error e) :
    (g.Refresh net remote).1 = g := by
  unfold GitCheckout.Refresh at h ⊢
  cases hfc : fetchContext net remote g.store <;> simp [hfc] at h ⊢

/-- A `Refresh` in a working network always succeeds. -/
theorem refresh_ok_of_net_ok (g : GitCheckout) (remote : Remote) :
    (g.Refresh .ok remote).2 = .ok () := by
  unfold GitCheckout.Refresh fetchContext
  by_cases h : needsUpdate remote g.store <;> simp [h]

/-! ## Claims -/

/-- C2: if `Refresh` returns an error (network failure or context
cancellation), the checkout's observable state — remote URL, local
path, and the tracking references and object graph seen by every
subsequent read operation — is exactly what it was before the call; no
partially-applied fetch is visible. -/
theorem refresh_error_preserves_state (g : GitCheckout) (net : NetCond)
    (remote : Remote) (e : GitErr)
    (h : (g.Refresh net remote).2 = .error e) :
    (g.Refresh net remote).1 = g ∧
    (g.Refresh net remote).1.remoteURL = g.remoteURL ∧
    (g.Refresh net remote).1.absPath = g.absPath ∧
    (g.Refresh net remote).1.store = g.store ∧
    (∀ b, ((g.Refresh net remote).1).LsFiles b = g.LsFiles b) ∧
    (∀ b p, ((g.Refresh net remote).1).GetFile b p = g.GetFile b p) ∧
    (∀ d b, ((g.Refresh net remote).1).LsDir d b = g.LsDir d b) ∧
    (∀ pre b, ((g.Refresh net remote).1).ZipContent pre b = g.ZipContent pre b) := by
  have heq := refresh_error_eq g net remote e h
  rw [heq]
  exact ⟨rfl, rfl, rfl, rfl, fun _ => rfl, fun _ _ => rfl, fun _ _ => rfl, fun _ _ => rfl⟩

/-- Witness for C2 at a concrete failing fetch. -/
theorem refresh_error_preserves_state_witness :
    (sampleCheckout.Refresh (.failed "boom") sampleRemoteAhead).1 = sampleCheckout :=
  (refresh_error_preserves_state sampleCheckout (.failed "boom") sampleRemoteAhead
    (.wrapped "unable to refresh repository" (.other "boom")) (by decide)).1

/-- C6: if the remote already matches the local tip, `Refresh` succeeds
without changing the checkout; and two consecutive `Refresh` calls with
no intervening remote change both succeed, with `LsFiles` identical
before and after the second call. -/
theorem refresh_idempotent (g : GitCheckout) (remote : Remote) :
    (needsUpdate remote g.store = false → g.Refresh .ok remote = (g, .ok ())) ∧
    (g.Refresh .ok remote).2 = .ok () ∧
    ((g.Refresh .ok remote).1.Refresh .ok remote).2 = .ok () ∧
    ((g.Refresh .ok remote).1.Refresh .ok remote).1 = (g.Refresh .ok remote).1 ∧
    (∀ b, (((g.Refresh .ok remote).1.Refresh .ok remote).1).LsFiles b =
          ((g.Refresh .ok remote).1).LsFiles b) := by
  refine ⟨?_, refresh_ok_of_net_ok g remote, refresh_ok_of_net_ok _ remote, ?_, ?_⟩
  · intro hup
    unfold GitCheckout.Refresh fetchContext
    simp [hup]
  · unfold GitCheckout.Refresh fetchContext
    by_cases h1 : needsUpdate remote g.store <;>
      by_cases h2 : needsUpdate remote (fetchedStore remote) <;>
        simp_all [GitCheckout.Refresh, fetchContext]
  · intro b
    unfold GitCheckout.Refresh fetchContext
    by_cases h1 : needsUpdate remote g.store <;>
      by_cases h2 : needsUpdate remote (fetchedStore remote) <;>
        simp_all [GitCheckout.Refresh, fetchContext]

/-- Witness for C6 at a concrete up-to-date remote. -/
theorem refresh_idempotent_witness :
    sampleCheckout.Refresh .ok sampleRemoteSame = (sampleCheckout, .ok ()) :=
  (refresh_idempotent sampleCheckout sampleRemoteSame).1 (by decide)

/-- C3: `GetFile` on a branch with no origin tracking reference fails
with an error that `errors.Is` recognizes as `UnknownBranchErr` and not
as the file-not-found sentinel; on a branch that resolves but a path
not present in its tree it fails with an error recognized as
`object.ErrFileNotFound` and not as `UnknownBranchErr` — the two
failures are distinguishable, never collapsed. -/
theorem getFile_not_found_discrimination (g : GitCheckout)
    (b₁ p₁ b₂ p₂ hash : String) (root : GitEntries)
    (h₁ : resolveRef g.store (remoteRefName b₁) = none)
    (h₂ : resolveRef g.store (remoteRefName b₂) = some hash)
    (h₃ : lookupCommit g.store hash = some root)
    (h₄ : fileAt root p₂ = none) :
    (∃ e, g.GetFile b₁ p₁ = .error e ∧
      errorsIs e .unknownBranchErr = true ∧ errorsIs e .errFileNotFound = false) ∧
    (∃ e, g.GetFile b₂ p₂ = .error e ∧
      errorsIs e .errFileNotFound = true ∧ errorsIs e .unknownBranchErr = false) := by
  constructor
  · refine ⟨.unknownBranch b₁ .refNotFound, ?_, by simp [errorsIs], by simp [errorsIs]⟩
    unfold GitCheckout.GetFile
    simp [h₁]
  · refine ⟨.wrapped ("unable to fetch file " ++ p₂) .fileNotFound, ?_,
      by simp [errorsIs], by simp [errorsIs]⟩
    unfold GitCheckout.GetFile fileContent
    simp [h₂, h₃, h₄]

/-- Witness for C3: on the sample store, branch `blarg` is unknown and
`master` lacks the path `missing`. -/
theorem getFile_not_found_discrimination_witness :
    (∃ e, sampleCheckout.GetFile "blarg" "a.txt" = .error e ∧
      errorsIs e .unknownBranchErr = true ∧ errorsIs e .errFileNotFound = false) ∧
    (∃ e, sampleCheckout.GetFile "master" "missing" = .error e ∧
      errorsIs e .errFileNotFound = true ∧ errorsIs e .unknownBranchErr = false) :=
  getFile_not_found_discrimination sampleCheckout "blarg" "a.txt" "master" "missing"
    "c1" sampleRoot (by decide) (by decide) (by decide) (by decide)

/-- C9 counterexample: at a concrete branch and existing file, the value
`GetFile` returns is a fully-filled buffer, not a lazily-reading
stream — refuting the claim that the file's full content is not read and
buffered before `GetFile` returns. -/
theorem getFile_not_lazy_counterexample :
    ¬ (∀ w, sampleCheckout.GetFile "master" "a.txt" = Except.ok w →
        w.isBuffered = false) := by
  intro hcl
  have := hcl (.buffered "alpha") (by decide)
  simp [WriterTo.isBuffered] at this

/-- C9 amended: on a valid branch and existing path, `GetFile` reads the
blob's full content into an in-memory buffer (`bytes.Buffer`) under its
shared lock and returns that buffer; the lazy stream (`readerWriterTo`,
which only reads the blob when `WriteTo` runs) is what the internal
`fileContent` returns before `GetFile` drains it. -/
theorem getFile_buffers_content (g : GitCheckout) (b p hash : String)
    (root : GitEntries) (c : String)
    (h₁ : resolveRef g.store (remoteRefName b) = some hash)
    (h₂ : lookupCommit g.store hash = some root)
    (h₃ : fileAt root p = some c) :
    g.GetFile b p = .ok (.buffered c) ∧
    (WriterTo.buffered c).isBuffered = true ∧
    fileContent g.store hash p = .ok (.lazyBlob g.store hash p) ∧
    (WriterTo.lazyBlob g.store hash p).isBuffered = false ∧
    (WriterTo.lazyBlob g.store hash p).writeTo = some c := by
  have hfc : fileContent g.store hash p = .ok (.lazyBlob g.store hash p) := by
    unfold fileContent
    simp [h₂, h₃]
  have hwt : (WriterTo.lazyBlob g.store hash p).writeTo = some c := by
    unfold WriterTo.writeTo
    simp [h₂, h₃]
  refine ⟨?_, rfl, hfc, rfl, hwt⟩
  unfold GitCheckout.GetFile
  simp [h₁, hfc, hwt]

/-- Witness for the amended C9 at a concrete file. -/
theorem getFile_buffers_content_witness :
    sampleCheckout.GetFile "master" "a.txt" = .ok (.buffered "alpha") :=
  (getFile_buffers_content sampleCheckout "master" "a.txt" "c1" sampleRoot "alpha"
    (by decide) (by decide) (by decide)).1

/-- C8: in the zip routing handler, a successful `ZipContent` reporting
zero files written is answered 404 (not found), distinct from the 500
used when `ZipContent` errors; a non-zero count is answered 200 with
`Content-Type: application/zip` and the archive bytes. -/
theorem zipDirHandler_count_mapping (checkouts : Checkouts)
    (repo branch dir : String) (g : GitCheckout) (p : PinnedCheckout)
    (hr : repo ≠ "") (hb : branch ≠ "")
    (hg : lookupStr checkouts repo = some g)
    (hp : g.WithReference (remoteRefName branch) = .ok p) :
    (∀ e, ZipContent dir p = .error e →
        zipDirHandler checkouts repo branch dir =
          ⟨500, .text ("unable to zip content for " ++ dir ++ ": " ++ e.render), none⟩) ∧
    (∀ entries, ZipContent dir p = .ok (entries, 0) →
        zipDirHandler checkouts repo branch dir =
          ⟨404, .text ("no files in path " ++ dir), none⟩) ∧
    (∀ entries n, ZipContent dir p = .ok (entries, n) → n ≠ 0 →
        zipDirHandler checkouts repo branch dir =
          ⟨200, .zipArchive entries, some "application/zip"⟩) := by
  refine ⟨?_, ?_, ?_⟩
  · intro e he
    unfold zipDirHandler
    simp [hr, hb, hg, hp, he]
  · intro entries he
    unfold zipDirHandler
    simp [hr, hb, hg, hp, he]
  · intro entries n he hn
    unfold zipDirHandler
    simp [hr, hb, hg, hp, he, hn]

/-- Witness for C8: the sample repository has no files under `missing`,
and the handler answers 404. -/
theorem zipDirHandler_count_mapping_witness :
    zipDirHandler [("r", sampleCheckout)] "r" "master" "missing" =
      ⟨404, .text "no files in path missing", none⟩ :=
  (zipDirHandler_count_mapping [("r", sampleCheckout)] "r" "master" "missing"
    sampleCheckout ⟨sampleStore, "c1"⟩ (by decide) (by decide) (by decide)
    (by decide)).2.1 [] (by decide)

/-! ### Association-map lemmas for `CheckoutsByRepo` -/

theorem mapInsert_key_mem {α : Type} (m : List (String × α)) (k : String) (v : α)
    (u : String) :
    u ∈ (mapInsert m k v).map Prod.fst ↔ u = k ∨ u ∈ m.map Prod.fst := by
  induction m with
  | nil => simp [mapInsert]
  | cons hd tl ih =>
      obtain ⟨k', v'⟩ := hd
      by_cases h : k' = k
      · subst h
        simp [mapInsert]
      · simp [mapInsert, h, ih]
        tauto

theorem mapInsert_keys_nodup {α : Type} (m : List (String × α)) (k : String) (v : α)
    (h : (m.map Prod.fst).Nodup) :
    ((mapInsert m k v).map Prod.fst).Nodup := by
  induction m with
  | nil => simp [mapInsert]
  | cons hd tl ih =>
      obtain ⟨k', v'⟩ := hd
      rw [List.map_cons, List.nodup_cons] at h
      obtain ⟨hnotin, hnd⟩ := h
      by_cases hk : k' = k
      · subst hk
        have hrw : mapInsert ((k', v') :: tl) k' v = (k', v) :: tl := by
          simp [mapInsert]
        rw [hrw, List.map_cons, List.nodup_cons]
        exact ⟨by simpa using hnotin, hnd⟩
      · simp only [mapInsert, if_neg hk]
        rw [List.map_cons, List.nodup_cons]
        refine ⟨?_, ih hnd⟩
        rw [mapInsert_key_mem]
        push_neg
        exact ⟨hk, hnotin⟩

theorem mapInsert_src {α : Type} (m : List (String × α)) (k : String) (v : α)
    (u : String) (c : α) (h : (u, c) ∈ mapInsert m k v) :
    (u = k ∧ c = v) ∨ (u, c) ∈ m := by
  induction m with
  | nil => simp [mapInsert] at h; tauto
  | cons hd tl ih =>
      obtain ⟨k', v'⟩ := hd
      by_cases hk : k' = k
      · subst hk
        simp [mapInsert] at h
        tauto
      · simp [mapInsert, hk] at h
        rcases h with h | h
        · simp [h]
        · rcases ih h with h' | h' <;> simp [h']

theorem mapInsert_length {α : Type} (m : List (String × α)) (k : String) (v : α) :
    (mapInsert m k v).length ≤ m.length + 1 := by
  induction m with
  | nil => simp [mapInsert]
  | cons hd tl ih =>
      obtain ⟨k', v'⟩ := hd
      by_cases hk : k' = k
      · simp [mapInsert, hk]
      · simp [mapInsert, hk]
        omega

/-- The fold step of `CheckoutsByRepo`. -/
def cbrStep (ret : List (String × GitCheckout)) (p : String × GitCheckout) :
    List (String × GitCheckout) :=
  mapInsert ret p.2.remoteURL p.2

theorem cbr_foldl_nodup (l : Checkouts) :
    ∀ acc : List (String × GitCheckout), (acc.map Prod.fst).Nodup →
      ((l.foldl cbrStep acc).map Prod.fst).Nodup := by
  induction l with
  | nil => intro acc h; simpa using h
  | cons hd tl ih =>
      intro acc h
      exact ih _ (mapInsert_keys_nodup acc hd.2.remoteURL hd.2 h)

theorem cbr_foldl_src (l : Checkouts) :
    ∀ acc : List (String × GitCheckout), ∀ u c,
      (u, c) ∈ l.foldl cbrStep acc →
      (u, c) ∈ acc ∨ (c.remoteURL = u ∧ ∃ a, (a, c) ∈ l) := by
  induction l with
  | nil => intro acc u c h; simp at h; exact Or.inl h
  | cons hd tl ih =>
      intro acc u c h
      rcases ih _ u c h with h' | h'
      · rcases mapInsert_src acc hd.2.remoteURL hd.2 u c h' with ⟨h1, h2⟩ | h''
        · subst h2
          exact Or.inr ⟨h1.symm, hd.1, by simp⟩
        · exact Or.inl h''
      · obtain ⟨hu, a, ha⟩ := h'
        exact Or.inr ⟨hu, a, by simp [ha]⟩

theorem cbr_foldl_key_mono (l : Checkouts) :
    ∀ acc : List (String × GitCheckout), ∀ u,
      u ∈ acc.map Prod.fst → u ∈ (l.foldl cbrStep acc).map Prod.fst := by
  induction l with
  | nil => intro acc u h; simpa using h
  | cons hd tl ih =>
      intro acc u h
      exact ih _ u ((mapInsert_key_mem acc hd.2.remoteURL hd.2 u).mpr (Or.inr h))

theorem cbr_foldl_coverage (l : Checkouts) :
    ∀ acc : List (String × GitCheckout), ∀ a c, (a, c) ∈ l →
      c.remoteURL ∈ (l.foldl cbrStep acc).map Prod.fst := by
  induction l with
  | nil => intro acc a c h; simp at h
  | cons hd tl ih =>
      intro acc a c h
      rcases List.mem_cons.mp h with h' | h'
      · subst h'
        exact cbr_foldl_key_mono tl _ _
          ((mapInsert_key_mem acc c.remoteURL c _).mpr (Or.inl rfl))
      · exact ih _ a c h'

theorem cbr_foldl_length (l : Checkouts) :
    ∀ acc : List (String × GitCheckout),
      (l.foldl cbrStep acc).length ≤ acc.length + l.length := by
  induction l with
  | nil => intro acc; simp
  | cons hd tl ih =>
      intro acc
      calc (tl.foldl cbrStep (cbrStep acc hd)).length
          ≤ (cbrStep acc hd).length + tl.length := ih _
        _ ≤ (acc.length + 1) + tl.length :=
            Nat.add_le_add_right (mapInsert_length acc hd.2.remoteURL hd.2) _
        _ = acc.length + (hd :: tl).length := by
              simp only [List.length_cons]; omega

/-- C10: `CheckoutsByRepo` — the remote-URL index rebuilt from the alias
map on each call — binds each remote URL to exactly one checkout (its
key list has no duplicates), every binding maps a URL to a configured
checkout carrying that URL, every configured checkout's URL is present,
and the index never has more entries than the alias map; when two
aliases share one remote URL (as the two sample checkouts do), the
index has strictly fewer entries, so only one of those checkouts is
reachable by URL. -/
theorem checkoutsByRepo_unique_index (l : Checkouts) :
    ((CheckoutsByRepo l).map Prod.fst).Nodup ∧
    (∀ u c, (u, c) ∈ CheckoutsByRepo l → c.remoteURL = u ∧ ∃ a, (a, c) ∈ l) ∧
    (∀ a c, (a, c) ∈ l → c.remoteURL ∈ (CheckoutsByRepo l).map Prod.fst) ∧
    (CheckoutsByRepo l).length ≤ l.length ∧
    (CheckoutsByRepo [("r1", sampleCheckout), ("r2", sampleCheckout2)]).length <
      [("r1", sampleCheckout), ("r2", sampleCheckout2)].length := by
  refine ⟨?_, ?_, ?_, ?_, by decide⟩
  · exact cbr_foldl_nodup l [] (by simp)
  · intro u c h
    rcases cbr_foldl_src l [] u c h with h' | h'
    · simp at h'
    · exact h'
  · intro a c h
    exact cbr_foldl_coverage l [] a c h
  · simpa using cbr_foldl_length l []

/-- Witness for C10's conditional parts at a concrete index. -/
theorem checkoutsByRepo_unique_index_witness :
    sampleCheckout2.remoteURL ∈
      (CheckoutsByRepo [("r1", sampleCheckout), ("r2", sampleCheckout2)]).map
        Prod.fst :=
  (checkoutsByRepo_unique_index
    [("r1", sampleCheckout), ("r2", sampleCheckout2)]).2.2.1 "r2" sampleCheckout2
    (by decide)

/-- When every configured checkout's `Refresh` succeeds, the
refresh-all handler refreshes each in order and answers 200 `"OK"`. -/
theorem refreshAll_all_ok (net : String → NetCond) (remote : String → Remote)
    (l : List (String × GitCheckout))
    (h : ∀ q ∈ l, (q.2.Refresh (net q.1) (remote q.1)).2 = .ok ()) :
    refreshAllRepoHandler net remote l =
      (l.map (fun q => (q.1, (q.2.Refresh (net q.1) (remote q.1)).1)),
       ⟨200, .text "OK", none⟩) := by
  induction l with
  | nil => rfl
  | cons q tl ih =>
      obtain ⟨nm, co⟩ := q
      have hq := h (nm, co) (by simp)
      rcases hco : co.Refresh (net nm) (remote nm) with ⟨co', r⟩
      rw [hco] at hq
      simp only at hq
      subst hq
      have ihh := ih (fun q hqq => h q (by simp [hqq]))
      simp [refreshAllRepoHandler, hco, ihh]

/-- C7: the refresh-all handler calls `Refresh` on each configured
checkout one at a time; at the first failing `Refresh` it stops,
answering 500 with that failure, leaves the failing and all later
checkouts untouched, and keeps (does not undo) the refreshes already
applied to earlier checkouts; when every `Refresh` succeeds it answers
200 with body `"OK"`. -/
theorem refreshAll_first_failure (net : String → NetCond) (remote : String → Remote)
    (pre post : List (String × GitCheckout)) (name : String) (co : GitCheckout)
    (e : GitErr)
    (hpre : ∀ q ∈ pre, (q.2.Refresh (net q.1) (remote q.1)).2 = .ok ())
    (hfail : (co.Refresh (net name) (remote name)).2 = .error e) :
    refreshAllRepoHandler net remote (pre ++ (name, co) :: post) =
      (pre.map (fun q => (q.1, (q.2.Refresh (net q.1) (remote q.1)).1)) ++
        (name, co) :: post,
       ⟨500, .text ("unable to refresh " ++ name ++ ": " ++ e.render), none⟩) ∧
    (∀ l : List (String × GitCheckout),
      (∀ q ∈ l, (q.2.Refresh (net q.1) (remote q.1)).2 = .ok ()) →
      refreshAllRepoHandler net remote l =
        (l.map (fun q => (q.1, (q.2.Refresh (net q.1) (remote q.1)).1)),
         ⟨200, .text "OK", none⟩)) := by
  refine ⟨?_, fun l hl => refreshAll_all_ok net remote l hl⟩
  induction pre with
  | nil =>
      rcases hco : co.Refresh (net name) (remote name) with ⟨co', r⟩
      have h1 : (co.Refresh (net name) (remote name)).2 = r := by rw [hco]
      rw [hfail] at h1
      have hcoeq : co' = co := by
        have := refresh_error_eq co (net name) (remote name) e hfail
        rw [hco] at this
        exact this
      subst hcoeq
      simp [refreshAllRepoHandler, hco, ← h1]
  | cons q tl ih =>
      obtain ⟨nm, cq⟩ := q
      have hq := hpre (nm, cq) (by simp)
      rcases hcq : cq.Refresh (net nm) (remote nm) with ⟨cq', r⟩
      rw [hcq] at hq
      simp only at hq
      subst hq
      have ihh := ih (fun q hqq => hpre q (by simp [hqq]))
      simp [refreshAllRepoHandler, hcq, ihh]

/-- Witness for C7: three repositories where the second one's fetch
fails; the first stays refreshed, the second and third are untouched,
and the response is 500. -/
theorem refreshAll_first_failure_witness :
    refreshAllRepoHandler
      (fun n => if n = "b" then .failed "x" else .ok)
      (fun _ => sampleRemoteSame)
      [("a", sampleCheckout), ("b", sampleCheckout), ("c", sampleCheckout)] =
      ([("a", sampleCheckout), ("b", sampleCheckout), ("c", sampleCheckout)],
       ⟨500, .text "unable to refresh b: unable to refresh repository: x", none⟩) := by
  have h := (refreshAll_first_failure
    (fun n => if n = "b" then .failed "x" else .ok)
    (fun _ => sampleRemoteSame)
    [("a", sampleCheckout)] [("c", sampleCheckout)] "b" sampleCheckout
    (.wrapped "unable to refresh repository" (.other "x"))
    (by decide) (by decide)).1
  simpa using h

/-- C5: for a branch that resolves and a directory argument that
resolves to a tree of its commit (the empty string denoting the root
tree), `LsDir` returns exactly the immediate children of that tree —
no recursion into subtrees — as `FileStat` values sorted
lexicographically by `Name`: the result is the sort of the one-level
entry list, a permutation of it that is ordered by name. -/
theorem lsDir_sorted_children (g : GitCheckout) (dir branch hash : String)
    (root es : GitEntries)
    (h₁ : resolveRef g.store (remoteRefName branch) = some hash)
    (h₂ : lookupCommit g.store hash = some root)
    (h₃ : (if dir = "" then some root else treeAt root dir) = some es) :
    g.LsDir dir branch = .ok ((es.toList.map statOf).insertionSort statLE) ∧
    ((es.toList.map statOf).insertionSort statLE).Perm (es.toList.map statOf) ∧
    List.Sorted statLE ((es.toList.map statOf).insertionSort statLE) := by
  refine ⟨?_, List.perm_insertionSort statLE _, List.sorted_insertionSort statLE _⟩
  unfold GitCheckout.LsDir
  simp [h₁, h₂, h₃]

/-- Witness for C5: listing `adir` of the sample repository yields its
two immediate children, sorted by name. -/
theorem lsDir_sorted_children_witness :
    sampleCheckout.LsDir "adir" "master" =
      .ok [⟨"sub.txt", 33188, "hs"⟩, ⟨"z.txt", 33188, "hz"⟩] := by
  have h := (lsDir_sorted_children sampleCheckout "adir" "master" "c1" sampleRoot
    sampleSub (by decide) (by decide) (by decide)).1
  rw [h]
  decide

/-- The packing loop keeps exactly the prefix-matching files, in order,
each under its stripped entry name with its blob content. -/
theorem zipLoop_filter_map (store : RefStore) (hash : String) (pre : String)
    (root : GitEntries) (hroot : lookupCommit store hash = some root)
    (files : List String)
    (hav : ∀ f ∈ files, strHasPrefix pre f = true → (fileAt root f).isSome) :
    zipLoop store hash pre files =
      .ok ((files.filter (fun f => strHasPrefix pre f)).map
        (fun f => (zipEntryName pre f, (fileAt root f).getD ""))) := by
  induction files with
  | nil => rfl
  | cons f rest ih =>
      have ihh := ih (fun x hx hpx => hav x (by simp [hx]) hpx)
      by_cases hp : strHasPrefix pre f = true
      · have hsome := hav f (by simp) hp
        obtain ⟨c, hc⟩ := Option.isSome_iff_exists.mp hsome
        have hfc : fileContent store hash f = .ok (.lazyBlob store hash f) := by
          unfold fileContent
          simp [hroot, hc]
        have hwt : (WriterTo.lazyBlob store hash f).writeTo = some c := by
          unfold WriterTo.writeTo
          simp [hroot, hc]
        unfold zipLoop
        simp [hp, hfc, hwt, ihh, hc]
      · unfold zipLoop
        simp only [Bool.not_eq_true] at hp
        simp [hp, ihh]

/-- C4: a successful `ZipContent` writes into the archive exactly those
entries of `LsFiles` whose paths have the trimmed prefix (leading and
trailing `/` removed) as a string prefix, each under the entry name
obtained by cutting that prefix (and one remaining leading `/`) off the
path, in the same relative order as `LsFiles`, with each entry holding
the file's full blob content; the returned count equals the number of
entries written. -/
theorem zipContent_filter_spec (g : GitCheckout) (pre branch hash : String)
    (root : GitEntries)
    (h₁ : resolveRef g.store (remoteRefName branch) = some hash)
    (h₂ : lookupCommit g.store hash = some root)
    (h₃ : ∀ f ∈ filesOf "" root, strHasPrefix (trimSlashes pre) f = true →
          (fileAt root f).isSome) :
    g.LsFiles branch = .ok (filesOf "" root) ∧
    g.ZipContent pre branch =
      .ok ((((filesOf "" root).filter (fun f => strHasPrefix (trimSlashes pre) f)).map
              (fun f => (zipEntryName (trimSlashes pre) f, (fileAt root f).getD ""))),
           (((filesOf "" root).filter (fun f => strHasPrefix (trimSlashes pre) f)).map
              (fun f => (zipEntryName (trimSlashes pre) f, (fileAt root f).getD ""))).length) := by
  have hls : g.lsFilesNoLock branch = .ok (filesOf "" root) := by
    unfold GitCheckout.lsFilesNoLock
    simp [h₁, h₂]
  have hloop := zipLoop_filter_map g.store hash (trimSlashes pre) root h₂
    (filesOf "" root) h₃
  constructor
  · exact hls
  · unfold GitCheckout.ZipContent
    simp [hls, h₁, hloop]

/-- Witness for C4: zipping the sample repository under prefix `adir/`
packs exactly `adir`'s two files, names stripped, count 2. -/
theorem zipContent_filter_spec_witness :
    sampleCheckout.ZipContent "adir/" "master" =
      .ok ([("sub.txt", "sub"), ("z.txt", "zz")], 2) := by
  have h := (zipContent_filter_spec sampleCheckout "adir/" "master" "c1" sampleRoot
    (by decide) (by decide) (by decide)).2
  rw [h]
  decide

/-! ### Lock automaton lemmas -/

/-- Mutual exclusion: an exclusive holder excludes every shared
holder. -/
def LockState.excl (st : LockState) : Prop :=
  st.writer = none ∨ st.readers = []

theorem stepEvent_excl (st st' : LockState) (e : Event)
    (h : stepEvent st e = some st') (hst : st.excl) : st'.excl := by
  cases e with
  | rLock u =>
      simp only [stepEvent] at h
      split at h
      · cases h
        rename_i hc
        exact Or.inl hc.1
      · cases h
  | rUnlock u =>
      simp only [stepEvent] at h
      split at h
      · cases h
        rcases hst with h' | h'
        · exact Or.inl h'
        · exact Or.inr (by simp [h'])
      · cases h
  | wLock u =>
      simp only [stepEvent] at h
      split at h
      · cases h
        rename_i hc
        exact Or.inr hc.2
      · cases h
  | wUnlock u =>
      simp only [stepEvent] at h
      split at h
      · cases h
        exact Or.inl rfl
      · cases h
  | setStore u s =>
      simp only [stepEvent] at h
      split at h
      · cases h
        rcases hst with h' | h'
        · exact Or.inl h'
        · exact Or.inr h'
      · cases h
  | readObs u s =>
      simp only [stepEvent] at h
      split at h
      · cases h
        exact hst
      · cases h

/-- While a thread holds the lock in shared mode, no step other than
its own release can remove it from the reader set or change the
store. -/
theorem stepEvent_reader_frame (st st' : LockState) (e : Event) (t : Nat)
    (h : stepEvent st e = some st') (hst : st.excl)
    (ht : t ∈ st.readers) (hne : e ≠ .rUnlock t) :
    t ∈ st'.readers ∧ st'.store = st.store := by
  have hreaders : st.readers ≠ [] := by
    intro hnil
    rw [hnil] at ht
    exact absurd ht (List.not_mem_nil t)
  have hwriter : st.writer = none := by
    rcases hst with h' | h'
    · exact h'
    · exact absurd h' hreaders
  cases e with
  | rLock u =>
      simp only [stepEvent] at h
      split at h
      · cases h
        exact ⟨List.mem_cons_of_mem u ht, rfl⟩
      · cases h
  | rUnlock u =>
      have hut : u ≠ t := fun hu => hne (by rw [hu])
      simp only [stepEvent] at h
      split at h
      · cases h
        exact ⟨List.mem_erase_of_ne (fun ha => hut ha.symm) |>.mpr ht, rfl⟩
      · cases h
  | wLock u =>
      simp only [stepEvent] at h
      split at h
      · rename_i hc
        exact absurd hc.2 hreaders
      · cases h
  | wUnlock u =>
      simp only [stepEvent] at h
      split at h
      · rename_i hc
        rw [hwriter] at hc
        cases hc
      · cases h
  | setStore u s =>
      simp only [stepEvent] at h
      split at h
      · rename_i hc
        rw [hwriter] at hc
        cases hc
      · cases h
  | readObs u s =>
      simp only [stepEvent] at h
      split at h
      · cases h
        exact ⟨ht, rfl⟩
      · cases h

theorem runEvents_cons (st : LockState) (e : Event) (rest : List Event) :
    runEvents st (e :: rest) =
      (stepEvent st e).bind (fun st' => runEvents st' rest) := by
  cases h : stepEvent st e <;> simp [runEvents, h]

theorem runEvents_append (st : LockState) (xs ys : List Event) :
    runEvents st (xs ++ ys) = (runEvents st xs).bind (fun st' => runEvents st' ys) := by
  induction xs generalizing st with
  | nil => simp [runEvents]
  | cons e rest ih =>
      simp only [List.cons_append, runEvents]
      cases stepEvent st e with
      | none => simp
      | some st' => simp [ih st']

theorem runEvents_excl (tr : List Event) :
    ∀ st st' : LockState, runEvents st tr = some st' → st.excl → st'.excl := by
  induction tr with
  | nil =>
      intro st st' h hst
      simp [runEvents] at h
      rw [← h]
      exact hst
  | cons e rest ih =>
      intro st st' h hst
      simp only [runEvents] at h
      cases hse : stepEvent st e with
      | none => rw [hse] at h; cases h
      | some st₁ =>
          rw [hse] at h
          exact ih st₁ st' h (stepEvent_excl st st₁ e hse hst)

theorem runEvents_reader_frame (tr : List Event) :
    ∀ st st' : LockState, ∀ t : Nat, st.excl → t ∈ st.readers →
      Event.rUnlock t ∉ tr → runEvents st tr = some st' →
      t ∈ st'.readers ∧ st'.store = st.store := by
  induction tr with
  | nil =>
      intro st st' t _ ht _ h
      simp [runEvents] at h
      rw [← h]
      exact ⟨ht, rfl⟩
  | cons e rest ih =>
      intro st st' t hst ht hnr h
      simp only [runEvents] at h
      cases hse : stepEvent st e with
      | none => rw [hse] at h; cases h
      | some st₁ =>
          rw [hse] at h
          have hne : e ≠ .rUnlock t := fun he => hnr (by rw [he]; simp)
          have hframe := stepEvent_reader_frame st st₁ e t hse hst ht hne
          have hexcl := stepEvent_excl st st₁ e hse hst
          have hrest := ih st₁ st' t hexcl hframe.1 (fun hm => hnr (by simp [hm])) h
          exact ⟨hrest.1, hrest.2.trans hframe.2⟩

/-- C1: in every valid interleaving of the lock automaton — `Refresh`
holding the lock exclusively for its whole fetch
(`wLock`/`setStore`/`wUnlock`), the read operations `GetFile`,
`LsFiles`, `LsDir` and `ZipContent` holding it in shared mode for their
whole duration (`rLock`, observations, `rUnlock`, as generated by
`readOpEvents`) — any two store observations one reader makes without
releasing its shared lock in between see the same store: a reader
observes the pre-refresh or the fully post-refresh object graph for its
entire duration, never a mixture. -/
theorem reader_never_sees_torn_state (s0 : RefStore) (t : Nat)
    (s1 s2 : RefStore) (a b c : List Event)
    (hv : validRun (initState s0)
      (a ++ Event.readObs t s1 :: (b ++ Event.readObs t s2 :: c)) = true)
    (hb : Event.rUnlock t ∉ b) : s1 = s2 := by
  have hsome : (runEvents (initState s0)
      (a ++ Event.readObs t s1 :: (b ++ Event.readObs t s2 :: c))).isSome := by
    simpa [validRun] using hv
  rw [runEvents_append] at hsome
  cases hA : runEvents (initState s0) a with
  | none => rw [hA] at hsome; cases hsome
  | some stA =>
      rw [hA] at hsome
      simp only [Option.some_bind] at hsome
      have hexclA : stA.excl :=
        runEvents_excl a (initState s0) stA hA (Or.inl rfl)
      rw [runEvents_cons] at hsome
      cases hs1 : stepEvent stA (Event.readObs t s1) with
      | none => rw [hs1] at hsome; simp at hsome
      | some stA' =>
          rw [hs1] at hsome
          simp only [Option.some_bind] at hsome
          have hcond : t ∈ stA.readers ∧ s1 = stA.store ∧ stA' = stA := by
            simp only [stepEvent] at hs1
            split at hs1
            · rename_i hc
              cases hs1
              exact ⟨hc.1, hc.2, rfl⟩
            · cases hs1
          obtain ⟨htA, hs1eq, hstA'⟩ := hcond
          rw [hstA'] at hsome
          rw [runEvents_append] at hsome
          cases hB : runEvents stA b with
          | none => rw [hB] at hsome; cases hsome
          | some stB =>
              rw [hB] at hsome
              simp only [Option.some_bind] at hsome
              have hframe := runEvents_reader_frame b stA stB t hexclA htA hb hB
              rw [runEvents_cons] at hsome
              cases hs2 : stepEvent stB (Event.readObs t s2) with
              | none => rw [hs2] at hsome; simp at hsome
              | some stB' =>
                  have hcond2 : s2 = stB.store := by
                    simp only [stepEvent] at hs2
                    split at hs2
                    · rename_i hc
                      exact hc.2
                    · cases hs2
                  rw [hs1eq, hcond2, hframe.2]

/-- Witness for C1: a concrete valid interleaving — reader 1 takes the
shared lock, observes the store twice, releases; refresher 2 then takes
the exclusive lock and installs a new store. -/
theorem reader_never_sees_torn_state_witness : sampleStore = sampleStore :=
  reader_never_sees_torn_state sampleStore 1 sampleStore sampleStore
    [Event.rLock 1] []
    (Event.rUnlock 1 :: refreshEvents 2 ⟨[(remoteRefName "master", "c2")], []⟩)
    (by decide) (by decide)

end Gitdb
